import Mathlib

/-!
Shallow embedding of the telegram-export repository (src/utils.py and
src/downloader.py) used to check its natural-language specification
against the code.  Python strings are modelled as lists of characters,
Python ints as Lean Int/Nat, Python sets and database tables as lists,
and fallible Python code (exceptions) as Option-valued functions.
The persistence layer (the dumper) is not part of the given sources;
its operations are modelled from the specification and are marked as
such in their doc comments.
-/

namespace TelegramExport

/-- Python strings are modelled as lists of characters.  Python
`s.split(c)` with a one-character separator is `List.splitOn c` and
`c.join(parts)` is `[c].intercalate parts`, including the corner cases
(splitting the empty string yields one empty part). -/
abbrev PyStr := List Char

/-- Embedding of Python `str.replace(old, new)` for a one-character
`old`: every occurrence of the character `c` is replaced by `rep`. -/
def replaceChar (c : Char) (rep : PyStr) : PyStr → PyStr
  | [] => []
  | x :: xs => (if x = c then rep else [x]) ++ replaceChar c rep xs

/-- The character for a single decimal digit, as produced by Python
`str()` on a nonnegative int. -/
def digitCh (d : Nat) : Char := Char.ofNat (48 + d)

/-- The decimal value of a digit character, as consumed by Python
`int()`. -/
def chDigit (c : Char) : Nat := c.toNat - 48

/-- Embedding of Python `str(n)` for a natural number: the decimal
digits, most significant first. -/
def natChars (n : Nat) : PyStr :=
  if n = 0 then ['0'] else ((Nat.digits 10 n).reverse).map digitCh

/-- Embedding of Python `int(s)` on a string of decimal digits: `none`
models the ValueError raised on malformed input.  (Python `int` also
tolerates surrounding whitespace and a leading plus sign; those forms
are never produced by the encoder and are not needed here.) -/
def parseNat (cs : PyStr) : Option Nat :=
  if cs ≠ [] ∧ cs.all Char.isDigit = true then
    some (Nat.ofDigits 10 ((cs.map chDigit).reverse))
  else none

/-- Embedding of Python `str(i)` for a possibly negative int. -/
def intChars (i : Int) : PyStr :=
  if i < 0 then '-' :: natChars i.natAbs else natChars i.toNat

/-- Embedding of Python `int(s)` including a leading minus sign. -/
def parseInt (cs : PyStr) : Option Int :=
  if cs.head? = some '-' then (parseNat cs.tail).map (fun n : Nat => -(n : Int))
  else (parseNat cs).map (fun n : Nat => (n : Int))

/-- The message-entity classes handled by src/utils.py (the keys of
ENTITY_TO_TEXT), with exactly the fields the code reads and writes.
`unsupported` stands for any other MessageEntity class. -/
inductive MsgEntity
  | pre (offset length : Int)
  | code (offset length : Int)
  | bold (offset length : Int)
  | italic (offset length : Int)
  | texturl (offset length : Int) (url : PyStr)
  | mentionname (offset length : Int) (user_id : Int)
  | unsupported
  deriving DecidableEq

/-- The URL escaping performed by `encode_msg_entities` for TextUrl
entities: commas first, then semicolons. -/
def escapeUrl (url : PyStr) : PyStr :=
  replaceChar ';' ("%3b".toList) (replaceChar ',' ("%2c".toList) url)

/-- One entity's serialized form, mirroring the format expression in
`encode_msg_entities` (kind, offset and length joined by commas, plus
the extra comma-prefixed field for TextUrl and MentionName); `none`
models an entity class missing from ENTITY_TO_TEXT, which the source
skips. -/
def encodeOne : MsgEntity → Option PyStr
  | .pre o l => some ("pre".toList ++ ',' :: intChars o ++ ',' :: intChars l)
  | .code o l => some ("code".toList ++ ',' :: intChars o ++ ',' :: intChars l)
  | .bold o l => some ("bold".toList ++ ',' :: intChars o ++ ',' :: intChars l)
  | .italic o l => some ("italic".toList ++ ',' :: intChars o ++ ',' :: intChars l)
  | .texturl o l u =>
      some ("texturl".toList ++ ',' :: intChars o ++ ',' :: intChars l
            ++ ',' :: escapeUrl u)
  | .mentionname o l uid =>
      some ("mentionname".toList ++ ',' :: intChars o ++ ',' :: intChars l
            ++ ',' :: intChars uid)
  | .unsupported => none

/-- Embedding of `utils.encode_msg_entities`: a falsy argument (None or
the empty list) yields None; otherwise the supported entities are
serialized and joined with semicolons. -/
def encode_msg_entities (es : Option (List MsgEntity)) : Option PyStr :=
  match es with
  | none => none
  | some l =>
      if l = [] then none
      else some ([';'].intercalate (l.filterMap encodeOne))

/-- Embedding of the body of `decode_msg_entities` for one
semicolon-separated part.  The outer Option models a raised exception
(IndexError from `split[1]` or ValueError from `int`); the inner
`none` models a part whose kind is not in TEXT_TO_ENTITY, which the
source silently skips.  As in the source, the offset and length are
converted before the kind is looked up. -/
def decodeOne (part : PyStr) : Option (Option MsgEntity) :=
  let split := part.splitOn ','
  let kind := split.headD []
  match split[1]? with
  | none => none
  | some offS =>
    match parseInt offS with
    | none => none
    | some off =>
      match split[2]? with
      | none => none
      | some lenS =>
        match parseInt lenS with
        | none => none
        | some len =>
          if kind = "texturl".toList then
            match split.getLast? with
            | none => none
            | some url => some (some (.texturl off len url))
          else if kind = "mentionname".toList then
            match split.getLast? with
            | none => none
            | some uidS =>
              match parseInt uidS with
              | none => none
              | some uid => some (some (.mentionname off len uid))
          else if kind = "pre".toList then some (some (.pre off len))
          else if kind = "code".toList then some (some (.code off len))
          else if kind = "bold".toList then some (some (.bold off len))
          else if kind = "italic".toList then some (some (.italic off len))
          else some none

/-- Left-to-right decoding of the parts, accumulating the recognized
entities and propagating a raised exception as `none`. -/
def decodeList : List PyStr → Option (List MsgEntity)
  | [] => some []
  | p :: ps =>
      match decodeOne p, decodeList ps with
      | none, _ => none
      | some none, r => r
      | some (some e), some es => some (e :: es)
      | some (some _), none => none

/-- Embedding of `utils.decode_msg_entities`: a falsy argument (None or
the empty string) yields None, otherwise the string is split on
semicolons and each part decoded.  The outer Option models a raised
exception, the inner one the Python return value. -/
def decode_msg_entities (s : Option PyStr) : Option (Option (List MsgEntity)) :=
  match s with
  | none => some none
  | some [] => some none
  | some cs => (decodeList (cs.splitOn ';')).map some

/-- An entity is in scope for the round-trip claim when its class is
supported and, for TextUrl, its URL contains neither a comma nor a
semicolon. -/
def entityOk : MsgEntity → Bool
  | .unsupported => false
  | .texturl _ _ url => !(url.contains ',') && !(url.contains ';')
  | _ => true

/-!
Media classification and filtering: `Downloader._get_media_type`,
`Downloader.check_media` and the relevant part of `Downloader.__init__`
from src/downloader.py.
-/

/-- The document attributes `_get_media_type` dispatches on. -/
inductive DocAttr
  | stickerAttr
  | videoAttr
  | audioAttr (voice : Bool)
  | filenameAttr
  | otherAttr
  deriving DecidableEq

/-- A telethon Document, with the fields relevant to classification and
filtering.  The document size is carried to state that the configured
MaxSize is never compared against it. -/
structure TLDocument where
  attributes : List DocAttr
  size : Nat
  deriving DecidableEq

/-- The MessageMedia variants distinguished by `_get_media_type`. -/
inductive MessageMedia
  | mediaPhoto
  | mediaDocument (doc : TLDocument)
  | mediaOther
  deriving DecidableEq

/-- The value returned by the Python `_get_media_type`: either a string
or the boolean `False` (the function is not uniformly string-valued). -/
inductive MediaTypeRet
  | strRet (s : String)
  | falseRet
  deriving DecidableEq

/-- Embedding of `Downloader._get_media_type`.  A falsy argument yields
the empty string.  For a MessageMediaDocument the source immediately
runs `if not isinstance(media, types.Document): return False`; `media`
is a MessageMediaDocument and never an instance of Document, so that
test always fails and the function returns `False` for every document
media — the attribute loop below it in the source is unreachable and
therefore absent from this embedding. -/
def get_media_type : Option MessageMedia → MediaTypeRet
  | none => .strRet ""
  | some .mediaPhoto => .strRet "photo"
  | some (.mediaDocument _) => .falseRet
  | some .mediaOther => .strRet "unknown"

/-- The attribute dispatch written (unreachably) inside
`_get_media_type`, as its docstring and the specification describe it:
the first Sticker/Video/Audio attribute decides the type, otherwise the
media is a plain document.  This is the documented behaviour the code
was meant to have, kept separate so the divergence can be stated. -/
def media_type_documented (attrs : List DocAttr) : String :=
  match attrs with
  | [] => "document"
  | .stickerAttr :: _ => "sticker"
  | .videoAttr :: _ => "video"
  | .audioAttr voice :: _ => if voice then "voice" else "audio"
  | .filenameAttr :: rest => media_type_documented rest
  | .otherAttr :: rest => media_type_documented rest

/-- Python `result in self.types` where `result` came from
`_get_media_type`: the boolean `False` is not a member of a set of
strings. -/
def retMem (r : MediaTypeRet) (ts : List String) : Bool :=
  match r with
  | .strRet s => ts.contains s
  | .falseRet => false

/-- The Downloader configuration state set up by `Downloader.__init__`:
`max_size` from the MaxSize key and `types`, the parsed media-type
whitelist. -/
structure DownloaderCfg where
  max_size : Int
  types : List String
  deriving DecidableEq

/-- The whitelist computation in `Downloader.__init__`: the configured
names form the set, and "unknown" is always allowed when the set is
nonempty.  (The source also strips and lowercases each name; the claims
quantify over the resulting set, so that normalization is omitted.) -/
def mkTypes (wl : List String) : List String :=
  if wl = [] then [] else wl ++ ["unknown"]

/-- Embedding of `Downloader.check_media`: absent media or a zero
MaxSize refuses, an empty whitelist accepts everything, otherwise the
classified type is looked up in the whitelist. -/
def check_media (cfg : DownloaderCfg) (media : Option MessageMedia) : Bool :=
  if media.isNone || cfg.max_size == 0 then false
  else if cfg.types.isEmpty then true
  else retMem (get_media_type media) cfg.types

/-!
The entity queue: `_EntityDownloader` from src/downloader.py.  Only the
queue bookkeeping is modelled; the remote full-info fetch and the
record dumping performed inside `_dump_entity` touch none of the queue
state and are irrelevant to the queue claims.
-/

/-- Peer ids as computed by telethon's `utils.get_peer_id`: a
deterministic injective function of the entity kind and raw id (users,
chats and channels live in disjoint ranges). -/
inductive PeerId
  | userP (n : Nat)
  | chatP (n : Nat)
  | channelP (n : Nat)
  deriving DecidableEq

/-- The entity classes `extend_pending` dispatches on, with the flags it
reads.  The last four constructors are the classes the source drops
(UserEmpty, ChatEmpty, ChatForbidden, ChannelForbidden). -/
inductive TLEntity
  | user (id : Nat) (deleted isMin : Bool)
  | chat (id : Nat)
  | channel (id : Nat) (left megagroup : Bool)
  | userEmpty (id : Nat)
  | chatEmpty (id : Nat)
  | chatForbidden (id : Nat)
  | channelForbidden (id : Nat)
  deriving DecidableEq

/-- Embedding of `utils.get_peer_id` restricted to the modelled entity
classes. -/
def get_peer_id : TLEntity → PeerId
  | .user i _ _ => .userP i
  | .userEmpty i => .userP i
  | .chat i => .chatP i
  | .chatEmpty i => .chatP i
  | .chatForbidden i => .chatP i
  | .channel i _ _ => .channelP i
  | .channelForbidden i => .channelP i

/-- True for users and channels, the only classes the queue may hold. -/
def isUserOrChannel : TLEntity → Bool
  | .user _ _ _ => true
  | .channel _ _ _ => true
  | _ => false

/-- The `_EntityDownloader` queue state: the pending deque, the
pending-id set and the dumped-id set (Python sets modelled as
duplicate-free lists). -/
structure EntityDL where
  pending : List TLEntity
  pending_ids : List PeerId
  dumped_ids : List PeerId
  deriving DecidableEq

/-- The fresh queue built by `_EntityDownloader.__init__`. -/
def entityDLInit : EntityDL := ⟨[], [], []⟩

/-- The queue bookkeeping of `_EntityDownloader._dump_entity`: the peer
id is discarded from the pending-id set and added to the dumped-id set
(the remote fetch and record dump it also performs do not touch the
queue state). -/
def dump_entity (st : EntityDL) (e : TLEntity) : EntityDL :=
  { st with
    pending_ids := st.pending_ids.erase (get_peer_id e),
    dumped_ids :=
      if get_peer_id e ∈ st.dumped_ids then st.dumped_ids
      else st.dumped_ids ++ [get_peer_id e] }

/-- The sleep recommended by `_dump_entity`: 0 for a basic group (no
remote request was needed), 1 otherwise. -/
def neededSleep : TLEntity → Nat
  | .chat _ => 0
  | _ => 1

/-- The enqueue step at the end of `extend_pending`'s loop body: the
entity is appended only when its peer id is in neither the dumped-id
nor the pending-id set. -/
def enqueue (st : EntityDL) (e : TLEntity) : EntityDL :=
  if get_peer_id e ∉ st.dumped_ids ∧ get_peer_id e ∉ st.pending_ids then
    { st with
      pending_ids := st.pending_ids ++ [get_peer_id e],
      pending := st.pending ++ [e] }
  else st

/-- One iteration of `extend_pending`'s loop: deleted or min users,
left channels and the empty/forbidden classes are dropped, basic
groups are dumped immediately, everything else is enqueued subject to
the membership check. -/
def offerOne (st : EntityDL) (e : TLEntity) : EntityDL :=
  match e with
  | .user _ deleted isMin => if deleted || isMin then st else enqueue st e
  | .chat _ => dump_entity st e
  | .channel _ left _ => if left then st else enqueue st e
  | _ => st

/-- Embedding of `_EntityDownloader.extend_pending`. -/
def extend_pending (st : EntityDL) (es : List TLEntity) : EntityDL :=
  es.foldl offerOne st

/-- Embedding of `_EntityDownloader.pop_pending`: pops the oldest
pending entity, dumps it and returns the recommended sleep; on an empty
queue it returns 0 and changes nothing. -/
def pop_pending (st : EntityDL) : EntityDL × Nat :=
  match st.pending with
  | [] => (st, 0)
  | e :: rest => (dump_entity { st with pending := rest } e, neededSleep e)

/-- `_EntityDownloader.total_count` (TotalSeen). -/
def total_count (st : EntityDL) : Nat :=
  st.pending_ids.length + st.dumped_ids.length

/-- `_EntityDownloader.dumped_count` (DumpedCount). -/
def dumped_count (st : EntityDL) : Nat := st.dumped_ids.length

/-- The operations a caller can perform on the queue. -/
inductive QOp
  | offer (es : List TLEntity)
  | pop

/-- Applies one queue operation. -/
def applyOp (st : EntityDL) : QOp → EntityDL
  | .offer es => extend_pending st es
  | .pop => (pop_pending st).1

/-- The queue state after a sequence of Offer/PopOne operations from a
fresh queue. -/
def runOps (ops : List QOp) : EntityDL := ops.foldl applyOp entityDLInit

/-!
The paging loop of `Downloader.save_messages`.  The loop body's effects
on the resume cursor and the message table are modelled; the entity
queue and media side effects are modelled separately above and below
and touch none of the state read here.  The dumper (the persistence
collaborator) is not among the given sources, so its operations are
modelled from the specification's storage interface.
-/

/-- The kind of one row of a history page: a content message
(types.Message), a service message (types.MessageService), or an
unrecognized row which the loop logs and skips. -/
inductive MsgKind
  | content
  | service
  | unknownKind
  deriving DecidableEq

/-- One row of a history page, with the fields the paging loop reads. -/
structure HMsg where
  id : Nat
  date : Nat
  kind : MsgKind
  deriving DecidableEq

/-- A resume-cursor value: (offset id, offset date, stop-at id). -/
structure Resume where
  offsetId : Nat
  offsetDate : Nat
  stopAt : Nat
  deriving DecidableEq

/-- Modelled from the spec: the storage collaborator as seen by one
run of `save_messages` over one context.  `messages` is the set of
persisted message ids (the upsert is idempotent on id + context),
`dumpLog` records every upsertMessage call in order, `cursor` is the
stored resume cursor and `resumeLog` records every saveResumeCursor
call in order. -/
structure DumperState where
  messages : List Nat
  dumpLog : List Nat
  cursor : Resume
  resumeLog : List Resume
  deriving DecidableEq

/-- Modelled from the spec: `saveResumeCursor` stores the tuple and is
the durable recovery point; the Python `dumper.save_resume` takes
msg, msg_date and stop_at with default 0, matching the source's
comment that after a completed pass the next run starts from offset 0
again. -/
def save_resume (d : DumperState) (msg msg_date stop_at : Nat) : DumperState :=
  { d with
    cursor := ⟨msg, msg_date, stop_at⟩,
    resumeLog := d.resumeLog ++ [⟨msg, msg_date, stop_at⟩] }

/-- Modelled from the spec: `upsertMessage` is idempotent on
id + context, so the id set gains the id at most once while the call
itself is always recorded. -/
def dump_message (d : DumperState) (i : Nat) : DumperState :=
  { d with
    messages := if i ∈ d.messages then d.messages else d.messages ++ [i],
    dumpLog := d.dumpLog ++ [i] }

/-- Modelled from the spec: `dumper.get_message_id(target, MAX)`, the
maximum persisted message id for the context (0 when none). -/
def max_msg_id (d : DumperState) : Nat := d.messages.foldr max 0

/-- The per-row persistence of the page loop: content and service
messages are dumped (dump_message / dump_message_service both persist
one message row), unrecognized rows are skipped with a warning. -/
def dump_page (d : DumperState) (msgs : List HMsg) : DumperState :=
  msgs.foldl
    (fun d m =>
      match m.kind with
      | .content => dump_message d m.id
      | .service => dump_message d m.id
      | .unknownKind => d)
    d

/-- The ids a page contributes to the message table (content and
service rows). -/
def pageIds (msgs : List HMsg) : List Nat :=
  msgs.filterMap
    (fun m =>
      match m.kind with
      | .unknownKind => none
      | _ => some m.id)

/-- Python `min(m.id for m in history.messages)` on a nonempty page. -/
def minId (msgs : List HMsg) : Nat :=
  match msgs.map HMsg.id with
  | [] => 0
  | x :: xs => xs.foldl min x

/-- Python `min(m.date for m in history.messages)` on a nonempty page. -/
def minDate (msgs : List HMsg) : Nat :=
  match msgs.map HMsg.date with
  | [] => 0
  | x :: xs => xs.foldl min x

/-- The in-flight loop state of `save_messages`: the GetHistoryRequest
offsets, the stop-at id loaded from the resume store, the remaining
chunk budget (an int: max_chunks 0 means unlimited, reaching -1 and
never 0) and the dumper. -/
structure PagingState where
  offsetId : Nat
  offsetDate : Nat
  stopAt : Nat
  chunksLeft : Int
  dumper : DumperState
  deriving DecidableEq

/-- The remote GetHistory capability: a page of rows for each
(offset id, offset date) request.  The page size actually returned is
the remote's choice; the loop only compares it with its limit. -/
abbrev Remote := Nat → Nat → List HMsg

/-- The page fetched for the current loop state. -/
def page (remote : Remote) (st : PagingState) : List HMsg :=
  remote st.offsetId st.offsetDate

/-- The offset id after processing a page: unchanged for an empty page
(the source guards the min with `if history.messages`), otherwise the
minimum id of the page. -/
def offsetAfter (st : PagingState) (msgs : List HMsg) : Nat :=
  if msgs = [] then st.offsetId else minId msgs

/-- The offset date after processing a page. -/
def dateAfter (st : PagingState) (msgs : List HMsg) : Nat :=
  if msgs = [] then st.offsetDate else minDate msgs

/-- One iteration of the `while True` loop of `save_messages`, from
fetching a page to the loop's bottom.  Returns the next state and
whether the loop ended (`break`).  The three exits mirror the source in
order: (a) the page was shorter than the limit, so the new stop-at is
the maximum persisted id; (b) the new offset id has reached the carried
stop-at, same stop-at update; otherwise the cursor is persisted with
the old stop-at preserved and (c) the loop ends when the decremented
chunk budget hits zero. -/
def step (remote : Remote) (limit : Nat) (st : PagingState) :
    PagingState × Bool :=
  let msgs := page remote st
  let d1 := dump_page st.dumper msgs
  let offId := offsetAfter st msgs
  let offDate := dateAfter st msgs
  if msgs.length < limit then
    ({ st with
        offsetId := offId, offsetDate := offDate,
        dumper := save_resume d1 0 0 (max_msg_id d1) }, true)
  else if offId ≤ st.stopAt then
    ({ st with
        offsetId := offId, offsetDate := offDate,
        dumper := save_resume d1 0 0 (max_msg_id d1) }, true)
  else
    let d2 := save_resume d1 offId offDate st.stopAt
    if st.chunksLeft - 1 = 0 then
      ({ st with
          offsetId := offId, offsetDate := offDate,
          chunksLeft := st.chunksLeft - 1, dumper := d2 }, true)
    else
      ({ st with
          offsetId := offId, offsetDate := offDate,
          chunksLeft := st.chunksLeft - 1, dumper := d2 }, false)

/-- Runs the paging loop for at most `fuel` pages; the flag reports
whether the loop reached one of its exits within the fuel. -/
def runPaging (remote : Remote) (limit : Nat) :
    Nat → PagingState → PagingState × Bool
  | 0, st => (st, false)
  | fuel + 1, st =>
      match step remote limit st with
      | (st', true) => (st', true)
      | (st', false) => runPaging remote limit fuel st'

/-!
Per-message media handling inside the page loop (`check_media`,
`download_media`, then the dump calls), for the media-failure claim.
-/

/-- One row of the Media table: the remote content-addressing key and
whether the blob actually landed on disk (absent when the download was
skipped or failed). -/
structure MediaRow where
  key : Nat
  blobPresent : Bool
  deriving DecidableEq

/-- One row of the Message table: the message id plus its
forward-reference and media foreign keys. -/
structure MsgRow where
  id : Nat
  forwardId : Option Nat
  mediaId : Option Nat
  deriving DecidableEq

/-- The slice of the store written by one message's processing. -/
structure MsgStore where
  mediaRows : List MediaRow
  msgRows : List MsgRow
  deriving DecidableEq

/-- A content message as the per-message code path sees it: its id, the
attached media with its remote key, and the forward origin. -/
structure CMsg where
  id : Nat
  media : Option MessageMedia
  mediaKey : Nat
  fwd : Option Nat
  deriving DecidableEq

/-- The per-message body of the page loop for a content message,
translated from `save_messages`: the media is downloaded when
`check_media` accepts it (the download's outcome is discarded by the
source — a failed download leaves no blob and nothing else), then the
forward reference and the media metadata are dumped, and the message
row is written with both foreign keys.  `downloadOk` is the external
blob download's outcome; the media metadata row (modelled from the
spec's upsertMedia) is written whether or not the blob arrived. -/
def processMessage (cfg : DownloaderCfg) (downloadOk : Bool) (m : CMsg)
    (store : MsgStore) : MsgStore :=
  let downloaded := check_media cfg m.media && downloadOk
  let mid : Option Nat := m.media.map (fun _ => m.mediaKey)
  let store1 :=
    match m.media with
    | none => store
    | some _ =>
        { store with
          mediaRows := store.mediaRows ++ [(⟨m.mediaKey, downloaded⟩ : MediaRow)] }
  { store1 with msgRows := store1.msgRows ++ [(⟨m.id, m.fwd, mid⟩ : MsgRow)] }

/-!
Invariant predicates and concrete scenario inputs used by the claim
theorems.
-/

/-- The queue's internal coherence: the pending-id set mirrors the
pending deque, both id sets are duplicate-free and disjoint, and the
deque holds only users and channels (the classes that need a secondary
fetch). -/
def QInv (st : EntityDL) : Prop :=
  st.pending.map get_peer_id = st.pending_ids ∧
  st.pending_ids.Nodup ∧
  st.dumped_ids.Nodup ∧
  (∀ i ∈ st.pending_ids, i ∉ st.dumped_ids) ∧
  (∀ e ∈ st.pending, isUserOrChannel e = true)

/-- Monotonicity of successive persisted cursors: offset ids never
increase and stop-at ids never decrease along the log. -/
def cursorMono (l : List Resume) : Prop :=
  List.Chain' (fun a b => b.offsetId ≤ a.offsetId ∧ a.stopAt ≤ b.stopAt) l

/-- The GetHistory contract the remote guarantees: message ids are
positive, and a request with a nonzero offset id only returns messages
strictly below that offset. -/
def goodRemote (remote : Remote) : Prop :=
  ∀ o d m, m ∈ remote o d → 1 ≤ m.id ∧ (o ≠ 0 → m.id < o)

/-- The paging loop's invariant: the carried stop-at never exceeds the
maximum persisted id, the cursor log so far is monotone, and while the
loop is still running its most recent save (if any) records the current
offset and stop-at, with a nonzero offset. -/
def PagingInv (st : PagingState) : Prop :=
  st.stopAt ≤ max_msg_id st.dumper ∧
  cursorMono st.dumper.resumeLog ∧
  ∀ r, st.dumper.resumeLog.getLast? = some r →
    r.offsetId = st.offsetId ∧ r.stopAt = st.stopAt ∧ st.offsetId ≠ 0

/-- A simulated remote for the resynchronization scenario: the prior
run persisted ids up to stopAt = 5; the final page of new history (the
page served at offset 0) has stopAt + 1 = 6 as its lowest id, and the
page served below offset 6 repeats the already-seen id 3. -/
def remoteC2 : Remote := fun o _ =>
  if o = 0 then [⟨6, 10, .content⟩]
  else if o = 6 then [⟨3, 9, .content⟩]
  else []

/-- The initial paging state for the resynchronization scenario: a
fresh run over a store already holding ids 3 and 5, resuming with
stopAt = 5 and an unlimited chunk budget. -/
def initC2 : PagingState :=
  ⟨0, 0, 5, 0, ⟨[3, 5], [], ⟨0, 0, 5⟩, []⟩⟩

/-!
Helper lemmas about the paging-loop state.
-/

theorem foldr_max_init_le (l : List Nat) (a b : Nat) (h : a ≤ b) :
    l.foldr max a ≤ l.foldr max b := by
  induction l with
  | nil => exact h
  | cons x xs ih => exact max_le_max le_rfl ih

theorem dump_message_resumeLog (d : DumperState) (i : Nat) :
    (dump_message d i).resumeLog = d.resumeLog := rfl

theorem dump_page_resumeLog (d : DumperState) (msgs : List HMsg) :
    (dump_page d msgs).resumeLog = d.resumeLog := by
  induction msgs generalizing d with
  | nil => rfl
  | cons m ms ih =>
      obtain ⟨i, dt, k⟩ := m
      cases k
      · exact (ih (dump_message d i)).trans rfl
      · exact (ih (dump_message d i)).trans rfl
      · exact ih d

theorem dump_page_dumpLog (d : DumperState) (msgs : List HMsg) :
    (dump_page d msgs).dumpLog = d.dumpLog ++ pageIds msgs := by
  induction msgs generalizing d with
  | nil => simp [dump_page, pageIds]
  | cons m ms ih =>
      obtain ⟨i, dt, k⟩ := m
      cases k
      · rw [show dump_page d (⟨i, dt, .content⟩ :: ms) =
              dump_page (dump_message d i) ms from rfl, ih]
        simp [dump_message, pageIds]
      · rw [show dump_page d (⟨i, dt, .service⟩ :: ms) =
              dump_page (dump_message d i) ms from rfl, ih]
        simp [dump_message, pageIds]
      · rw [show dump_page d (⟨i, dt, .unknownKind⟩ :: ms) = dump_page d ms from rfl,
          ih]
        simp [pageIds]

theorem max_msg_id_dump_message_le (d : DumperState) (i : Nat) :
    max_msg_id d ≤ max_msg_id (dump_message d i) := by
  unfold max_msg_id dump_message
  by_cases h : i ∈ d.messages
  · simp [h]
  · simp only [h, if_false]
    rw [List.foldr_append]
    exact foldr_max_init_le _ _ _ (by simp)

theorem max_msg_id_dump_page_le (d : DumperState) (msgs : List HMsg) :
    max_msg_id d ≤ max_msg_id (dump_page d msgs) := by
  induction msgs generalizing d with
  | nil => exact le_rfl
  | cons m ms ih =>
      cases h : m.kind <;> simp only [dump_page, List.foldl_cons, h] <;>
        first
          | exact le_trans (max_msg_id_dump_message_le d m.id) (ih _)
          | exact ih d

theorem foldl_min_mem (xs : List Nat) (x : Nat) :
    xs.foldl min x = x ∨ xs.foldl min x ∈ xs := by
  induction xs generalizing x with
  | nil => exact Or.inl rfl
  | cons y ys ih =>
      rcases ih (min x y) with h | h
      · rcases min_choice x y with hm | hm
        · exact Or.inl (by rw [List.foldl_cons, h, hm])
        · exact Or.inr (by rw [List.foldl_cons, h, hm]; exact List.mem_cons_self _ _)
      · exact Or.inr (List.mem_cons_of_mem _ h)

theorem minId_spec (msgs : List HMsg) (h : msgs ≠ []) :
    ∃ m ∈ msgs, minId msgs = m.id := by
  unfold minId
  cases hm : msgs.map HMsg.id with
  | nil => exact absurd (List.map_eq_nil_iff.mp hm) h
  | cons x xs =>
      have hmem : xs.foldl min x ∈ msgs.map HMsg.id := by
        rw [hm]
        rcases foldl_min_mem xs x with h1 | h1
        · rw [h1]; exact List.mem_cons_self _ _
        · exact List.mem_cons_of_mem _ h1
      rcases List.mem_map.mp hmem with ⟨m, hm1, hm2⟩
      exact ⟨m, hm1, hm2.symm⟩

theorem step_short (remote : Remote) (limit : Nat) (st : PagingState)
    (ha : (page remote st).length < limit) :
    step remote limit st =
      ({ st with
          offsetId := offsetAfter st (page remote st),
          offsetDate := dateAfter st (page remote st),
          dumper := save_resume (dump_page st.dumper (page remote st)) 0 0
            (max_msg_id (dump_page st.dumper (page remote st))) }, true) := by
  simp only [step, if_pos ha]

theorem step_caught_up (remote : Remote) (limit : Nat) (st : PagingState)
    (ha : ¬ (page remote st).length < limit)
    (hb : offsetAfter st (page remote st) ≤ st.stopAt) :
    step remote limit st =
      ({ st with
          offsetId := offsetAfter st (page remote st),
          offsetDate := dateAfter st (page remote st),
          dumper := save_resume (dump_page st.dumper (page remote st)) 0 0
            (max_msg_id (dump_page st.dumper (page remote st))) }, true) := by
  simp only [step, if_neg ha, if_pos hb]

theorem step_continue (remote : Remote) (limit : Nat) (st : PagingState)
    (ha : ¬ (page remote st).length < limit)
    (hb : ¬ offsetAfter st (page remote st) ≤ st.stopAt) :
    (step remote limit st).1 =
      { st with
          offsetId := offsetAfter st (page remote st),
          offsetDate := dateAfter st (page remote st),
          chunksLeft := st.chunksLeft - 1,
          dumper := save_resume (dump_page st.dumper (page remote st))
            (offsetAfter st (page remote st)) (dateAfter st (page remote st))
            st.stopAt } ∧
    ((step remote limit st).2 = true ↔ st.chunksLeft - 1 = 0) := by
  simp only [step, if_neg ha, if_neg hb]
  by_cases hc : st.chunksLeft - 1 = 0 <;> simp [hc]

/-!
Claim theorems for media filtering and per-message persistence.
-/

/-- C8 (code bug evidence): the source classifies every document media
as the boolean `False` — it tests `isinstance(media, types.Document)`
on a value that is always a MessageMediaDocument — while its docstring
and the attribute dispatch written below the test say a video-attribute
document is classified "video"; consequently `check_media` rejects a
video document even when "video" (or every document type) is
whitelisted and MaxSize is nonzero. -/
theorem document_media_misclassified :
    get_media_type (some (.mediaDocument ⟨[.videoAttr], 7⟩)) = .falseRet ∧
    media_type_documented [.videoAttr] = "video" ∧
    check_media ⟨1, mkTypes ["video"]⟩
      (some (.mediaDocument ⟨[.videoAttr], 7⟩)) = false ∧
    check_media ⟨1, mkTypes ["document", "sticker", "video", "audio", "voice"]⟩
      (some (.mediaDocument ⟨[.videoAttr], 7⟩)) = false := by
  decide

/-- C10: `check_media` refuses whenever the media is absent or the
configured MaxSize is zero; when MaxSize is nonzero and the configured
whitelist is empty it accepts every present media; and the decision
never depends on the media's actual size (shown by varying a
document's size field). -/
theorem check_media_gating (cfg : DownloaderCfg) (media : Option MessageMedia)
    (m : MessageMedia) (d : TLDocument) (s : Nat) :
    check_media cfg none = false ∧
    (cfg.max_size = 0 → check_media cfg media = false) ∧
    (cfg.max_size ≠ 0 →
      check_media ⟨cfg.max_size, mkTypes []⟩ (some m) = true) ∧
    check_media cfg (some (.mediaDocument { d with size := s })) =
      check_media cfg (some (.mediaDocument d)) := by
  refine ⟨by simp [check_media], fun h => by simp [check_media, h], fun h => ?_, ?_⟩
  · simp [check_media, mkTypes, h]
  · simp [check_media, retMem, get_media_type]

theorem check_media_gating_witness :
    check_media ⟨3, mkTypes ["photo"]⟩ none = false ∧
    check_media ⟨0, mkTypes ["photo"]⟩ (some .mediaPhoto) = false ∧
    check_media ⟨3, mkTypes []⟩ (some .mediaPhoto) = true ∧
    check_media ⟨3, mkTypes ["photo"]⟩ (some (.mediaDocument ⟨[], 9⟩)) =
      check_media ⟨3, mkTypes ["photo"]⟩ (some (.mediaDocument ⟨[], 2⟩)) :=
  ⟨(check_media_gating ⟨3, mkTypes ["photo"]⟩ none .mediaPhoto ⟨[], 2⟩ 9).1,
   (check_media_gating ⟨0, mkTypes ["photo"]⟩ (some .mediaPhoto) .mediaPhoto
      ⟨[], 2⟩ 9).2.1 rfl,
   (check_media_gating ⟨3, mkTypes []⟩ (some .mediaPhoto) .mediaPhoto
      ⟨[], 2⟩ 9).2.2.1 (by decide),
   (check_media_gating ⟨3, mkTypes ["photo"]⟩ none .mediaPhoto ⟨[], 2⟩ 9).2.2.2⟩

/-- C6: `extend_pending` returns the queue unchanged — nothing
enqueued, nothing dumped, TotalSeen unchanged — for deleted users, min
users, left channels and each of the empty/forbidden entity classes. -/
theorem offer_drops_unusable (st : EntityDL) (n : Nat) (d m mg : Bool) :
    extend_pending st [.user n true m] = st ∧
    extend_pending st [.user n d true] = st ∧
    extend_pending st [.channel n true mg] = st ∧
    extend_pending st [.userEmpty n] = st ∧
    extend_pending st [.chatEmpty n] = st ∧
    extend_pending st [.chatForbidden n] = st ∧
    extend_pending st [.channelForbidden n] = st ∧
    total_count (extend_pending st [.channel n true mg]) = total_count st := by
  refine ⟨?_, ?_, ?_, rfl, rfl, rfl, rfl, ?_⟩ <;>
    simp [extend_pending, offerOne]

/-- C5: a failed media download does not abort persistence of the
message: processing a media-carrying message whose blob download
failed still writes exactly one message row, carrying its forward
reference and referencing exactly one media metadata row whose blob is
absent. -/
theorem media_failure_message_persisted (cfg : DownloaderCfg) (m : CMsg)
    (med : MessageMedia) (hm : m.media = some med) :
    processMessage cfg false m ⟨[], []⟩ =
      ⟨[⟨m.mediaKey, false⟩], [⟨m.id, m.fwd, some m.mediaKey⟩]⟩ := by
  simp [processMessage, hm]

theorem media_failure_message_persisted_witness :
    processMessage ⟨3, mkTypes []⟩ false ⟨11, some .mediaPhoto, 42, some 7⟩ ⟨[], []⟩ =
      ⟨[⟨42, false⟩], [⟨11, some 7, some 42⟩]⟩ :=
  media_failure_message_persisted ⟨3, mkTypes []⟩
    ⟨11, some .mediaPhoto, 42, some 7⟩ .mediaPhoto rfl

/-- C1: after a page is processed, the loop's exits are checked in the
source's order: (a) a page shorter than the limit persists a cursor
whose stop-at is the now-current maximum persisted id and ends the
loop; (b) failing that, a new offset id at or below the carried
stop-at makes the same stop-at update and ends the loop; (c) failing
both, the cursor is persisted with the old stop-at preserved, and the
loop ends exactly when the decremented page budget reaches zero, with
no further stop-at update. -/
theorem paging_exit_order (remote : Remote) (limit : Nat) (st : PagingState) :
    ((page remote st).length < limit →
      step remote limit st =
        ({ st with
            offsetId := offsetAfter st (page remote st),
            offsetDate := dateAfter st (page remote st),
            dumper := save_resume (dump_page st.dumper (page remote st)) 0 0
              (max_msg_id (dump_page st.dumper (page remote st))) }, true)) ∧
    (¬ (page remote st).length < limit →
      offsetAfter st (page remote st) ≤ st.stopAt →
      step remote limit st =
        ({ st with
            offsetId := offsetAfter st (page remote st),
            offsetDate := dateAfter st (page remote st),
            dumper := save_resume (dump_page st.dumper (page remote st)) 0 0
              (max_msg_id (dump_page st.dumper (page remote st))) }, true)) ∧
    (¬ (page remote st).length < limit →
      ¬ offsetAfter st (page remote st) ≤ st.stopAt →
      (step remote limit st).1.dumper.resumeLog =
        st.dumper.resumeLog ++
          [⟨offsetAfter st (page remote st), dateAfter st (page remote st),
            st.stopAt⟩] ∧
      ((step remote limit st).2 = true ↔ st.chunksLeft - 1 = 0)) := by
  refine ⟨step_short remote limit st, step_caught_up remote limit st,
    fun ha hb => ?_⟩
  have h := step_continue remote limit st ha hb
  refine ⟨?_, h.2⟩
  rw [h.1]
  simp [save_resume, dump_page_resumeLog]

theorem paging_exit_order_witness :
    (step (fun _ _ => []) 1 ⟨5, 5, 0, 0, ⟨[], [], ⟨0, 0, 0⟩, []⟩⟩).2 = true ∧
    (step (fun _ _ => [⟨2, 2, .content⟩, ⟨3, 3, .content⟩]) 2
        ⟨9, 9, 4, 0, ⟨[], [], ⟨0, 0, 4⟩, []⟩⟩).2 = true ∧
    (step (fun _ _ => [⟨7, 7, .content⟩]) 1
        ⟨9, 9, 3, 5, ⟨[], [], ⟨0, 0, 3⟩, []⟩⟩).1.dumper.resumeLog = [⟨7, 7, 3⟩] ∧
    (step (fun _ _ => [⟨7, 7, .content⟩]) 1
        ⟨9, 9, 3, 5, ⟨[], [], ⟨0, 0, 3⟩, []⟩⟩).2 = false := by
  refine ⟨?_, ?_, ?_, ?_⟩
  · rw [(paging_exit_order (fun _ _ => []) 1
      ⟨5, 5, 0, 0, ⟨[], [], ⟨0, 0, 0⟩, []⟩⟩).1 (by decide)]
  · rw [(paging_exit_order (fun _ _ => [⟨2, 2, .content⟩, ⟨3, 3, .content⟩]) 2
      ⟨9, 9, 4, 0, ⟨[], [], ⟨0, 0, 4⟩, []⟩⟩).2.1 (by decide) (by decide)]
  · exact ((paging_exit_order (fun _ _ => [⟨7, 7, .content⟩]) 1
      ⟨9, 9, 3, 5, ⟨[], [], ⟨0, 0, 3⟩, []⟩⟩).2.2 (by decide) (by decide)).1
  · have h := ((paging_exit_order (fun _ _ => [⟨7, 7, .content⟩]) 1
      ⟨9, 9, 3, 5, ⟨[], [], ⟨0, 0, 3⟩, []⟩⟩).2.2 (by decide) (by decide)).2
    revert h
    decide

/-!
Queue invariant lemmas.
-/

theorem enqueue_dumped (st : EntityDL) (e : TLEntity) :
    (enqueue st e).dumped_ids = st.dumped_ids := by
  unfold enqueue
  split <;> rfl

theorem enqueue_qinv (st : EntityDL) (e : TLEntity)
    (he : isUserOrChannel e = true) (h : QInv st) : QInv (enqueue st e) := by
  obtain ⟨h1, h2, h3, h4, h5⟩ := h
  unfold enqueue
  split
  · rename_i hcond
    refine ⟨?_, ?_, h3, ?_, ?_⟩
    · simp [h1]
    · simp only [List.nodup_append, h2, List.nodup_singleton, true_and]
      simp only [List.disjoint_singleton]
      exact hcond.2
    · intro i hi
      rcases List.mem_append.mp hi with hi | hi
      · exact h4 i hi
      · rw [List.mem_singleton.mp hi]; exact hcond.1
    · intro x hx
      rcases List.mem_append.mp hx with hx | hx
      · exact h5 x hx
      · rw [List.mem_singleton.mp hx]; exact he
  · exact ⟨h1, h2, h3, h4, h5⟩

theorem chat_peer_not_pending (st : EntityDL) (n : Nat) (h : QInv st) :
    get_peer_id (.chat n) ∉ st.pending_ids := by
  intro hmem
  rw [← h.1] at hmem
  rcases List.mem_map.mp hmem with ⟨e, he, hpe⟩
  have := h.2.2.2.2 e he
  cases e <;> simp [isUserOrChannel] at this <;> simp [get_peer_id] at hpe

theorem dump_chat_qinv (st : EntityDL) (n : Nat) (h : QInv st) :
    QInv (dump_entity st (.chat n)) := by
  obtain ⟨h1, h2, h3, h4, h5⟩ := h
  have hnp : get_peer_id (.chat n) ∉ st.pending_ids :=
    chat_peer_not_pending st n ⟨h1, h2, h3, h4, h5⟩
  unfold dump_entity
  rw [List.erase_of_not_mem hnp]
  refine ⟨h1, h2, ?_, ?_, h5⟩
  · split
    · exact h3
    · rename_i hd
      simp only [List.nodup_append, h3, List.nodup_singleton, true_and,
        List.disjoint_singleton]
      exact hd
  · intro i hi
    split
    · exact h4 i hi
    · intro hmem
      rcases List.mem_append.mp hmem with hm | hm
      · exact h4 i hi hm
      · rw [List.mem_singleton.mp hm] at hi
        exact hnp hi

theorem offerOne_qinv (st : EntityDL) (e : TLEntity) (h : QInv st) :
    QInv (offerOne st e) := by
  cases e with
  | user n d m =>
      by_cases hdm : (d || m) = true
      · simpa [offerOne, hdm] using h
      · simp only [offerOne, hdm, if_false]
        exact enqueue_qinv st _ rfl h
  | chat n => exact dump_chat_qinv st n h
  | channel n l mg =>
      by_cases hl : l = true
      · simpa [offerOne, hl] using h
      · simp only [offerOne, hl, if_false]
        exact enqueue_qinv st _ rfl h
  | userEmpty n => exact h
  | chatEmpty n => exact h
  | chatForbidden n => exact h
  | channelForbidden n => exact h

theorem extend_pending_qinv (es : List TLEntity) :
    ∀ st : EntityDL, QInv st → QInv (extend_pending st es) := by
  induction es with
  | nil => exact fun st h => h
  | cons e es ih => exact fun st h => ih (offerOne st e) (offerOne_qinv st e h)

theorem pop_pending_qinv (st : EntityDL) (h : QInv st) :
    QInv (pop_pending st).1 := by
  obtain ⟨h1, h2, h3, h4, h5⟩ := h
  cases hp : st.pending with
  | nil => simpa [pop_pending, hp] using ⟨h1, h2, h3, h4, h5⟩
  | cons e rest =>
      have hids : st.pending_ids = get_peer_id e :: rest.map get_peer_id := by
        rw [← h1, hp]; rfl
      have hd : get_peer_id e ∉ st.dumped_ids :=
        h4 _ (by rw [hids]; exact List.mem_cons_self _ _)
      have hnodup : (get_peer_id e :: rest.map get_peer_id).Nodup := by
        rw [← hids]; exact h2
      simp only [pop_pending, hp]
      unfold dump_entity
      refine ⟨?_, ?_, ?_, ?_, ?_⟩
      · simp only [hids, List.erase_cons_head]
      · simp only [hids, List.erase_cons_head]
        exact hnodup.of_cons
      · simp only [hd, if_false]
        simp only [List.nodup_append, h3, List.nodup_singleton, true_and,
          List.disjoint_singleton]
        exact hd
      · intro i hi
        simp only [hids, List.erase_cons_head] at hi
        simp only [hd, if_false]
        intro hmem
        rcases List.mem_append.mp hmem with hm | hm
        · exact h4 i (by rw [hids]; exact List.mem_cons_of_mem _ hi) hm
        · rw [List.mem_singleton.mp hm] at hi
          exact (List.nodup_cons.mp hnodup).1 hi
      · intro x hx
        exact h5 x (by rw [hp]; exact List.mem_cons_of_mem _ hx)

theorem applyOp_qinv (st : EntityDL) (op : QOp) (h : QInv st) :
    QInv (applyOp st op) := by
  cases op with
  | offer es => exact extend_pending_qinv es st h
  | pop => exact pop_pending_qinv st h

theorem foldl_applyOp_qinv (ops : List QOp) :
    ∀ st : EntityDL, QInv st → QInv (ops.foldl applyOp st) := by
  induction ops with
  | nil => exact fun st h => h
  | cons op ops ih => exact fun st h => ih _ (applyOp_qinv st op h)

theorem qinv_init : QInv entityDLInit := by
  refine ⟨rfl, List.nodup_nil, List.nodup_nil, ?_, ?_⟩ <;> intro x hx <;> cases hx

theorem runOps_qinv (ops : List QOp) : QInv (runOps ops) :=
  foldl_applyOp_qinv ops entityDLInit qinv_init

theorem dump_entity_dumped_subset (st : EntityDL) (e : TLEntity) :
    st.dumped_ids ⊆ (dump_entity st e).dumped_ids := by
  unfold dump_entity
  split
  · exact fun i h => h
  · exact fun i h => List.mem_append_left _ h

theorem offerOne_dumped_subset (st : EntityDL) (e : TLEntity) :
    st.dumped_ids ⊆ (offerOne st e).dumped_ids := by
  cases e with
  | user n d m =>
      by_cases hdm : (d || m) = true
      · simp [offerOne, hdm]
      · simp [offerOne, hdm, enqueue_dumped]
  | chat n => exact dump_entity_dumped_subset st _
  | channel n l mg =>
      by_cases hl : l = true
      · simp [offerOne, hl]
      · simp [offerOne, hl, enqueue_dumped]
  | userEmpty n => exact fun i h => h
  | chatEmpty n => exact fun i h => h
  | chatForbidden n => exact fun i h => h
  | channelForbidden n => exact fun i h => h

theorem applyOp_dumped_subset (st : EntityDL) (op : QOp) :
    st.dumped_ids ⊆ (applyOp st op).dumped_ids := by
  cases op with
  | offer es =>
      show st.dumped_ids ⊆ (extend_pending st es).dumped_ids
      induction es generalizing st with
      | nil => exact fun i h => h
      | cons e es ih =>
          exact fun i h => ih (offerOne st e) (offerOne_dumped_subset st e h)
  | pop =>
      cases hp : st.pending with
      | nil => simp [applyOp, pop_pending, hp]
      | cons e rest =>
          simp only [applyOp, pop_pending, hp]
          exact dump_entity_dumped_subset _ e

theorem foldl_applyOp_dumped_subset (ops : List QOp) :
    ∀ st : EntityDL, st.dumped_ids ⊆ (ops.foldl applyOp st).dumped_ids := by
  induction ops with
  | nil => exact fun st i h => h
  | cons op ops ih =>
      exact fun st i h => ih _ (applyOp_dumped_subset st op h)

/-- C4: after any sequence of Offer and PopOne operations on a fresh
queue, no peer id is both pending and dumped, TotalSeen equals Size
plus DumpedCount (equivalently, the pending deque and the pending-id
set have the same size), and an id that has entered the dumped set
stays dumped and never re-enters the pending set under any further
operations. -/
theorem entity_queue_invariants (ops more : List QOp) (i : PeerId) :
    ¬ (i ∈ (runOps ops).pending_ids ∧ i ∈ (runOps ops).dumped_ids) ∧
    total_count (runOps ops) =
      (runOps ops).pending.length + dumped_count (runOps ops) ∧
    (runOps ops).pending.length = (runOps ops).pending_ids.length ∧
    (i ∈ (runOps ops).dumped_ids →
      i ∈ (runOps (ops ++ more)).dumped_ids ∧
      i ∉ (runOps (ops ++ more)).pending_ids) := by
  have h := runOps_qinv ops
  have hlen : (runOps ops).pending.length = (runOps ops).pending_ids.length := by
    rw [← h.1, List.length_map]
  refine ⟨fun ⟨hp, hd⟩ => h.2.2.2.1 i hp hd, ?_, hlen, ?_⟩
  · unfold total_count dumped_count
    rw [hlen]
  · intro hd
    have hsplit : runOps (ops ++ more) = more.foldl applyOp (runOps ops) := by
      unfold runOps
      rw [List.foldl_append]
    have hmem : i ∈ (runOps (ops ++ more)).dumped_ids := by
      rw [hsplit]
      exact foldl_applyOp_dumped_subset more (runOps ops) hd
    exact ⟨hmem, fun hp => (runOps_qinv (ops ++ more)).2.2.2.1 i hp hmem⟩

theorem entity_queue_invariants_witness :
    ¬ ((runOps [.offer [.chat 5]]).pending_ids.contains (.chatP 5) = true ∧
       (runOps [.offer [.chat 5]]).dumped_ids.contains (.chatP 5) = true) ∧
    PeerId.chatP 5 ∈ (runOps ([.offer [.chat 5]] ++ [.pop])).dumped_ids ∧
    PeerId.chatP 5 ∉ (runOps ([.offer [.chat 5]] ++ [.pop])).pending_ids := by
  have h := entity_queue_invariants [.offer [.chat 5]] [.pop] (.chatP 5)
  have hd := h.2.2.2 (by decide)
  exact ⟨fun ⟨hp, hdd⟩ => h.1 ⟨by simpa using hp, by simpa using hdd⟩, hd.1, hd.2⟩

/-- C7: a basic group (Chat) offered to the queue is dumped
immediately from its discovery payload — its peer id goes straight to
the dumped set, it is never placed in the pending deque, and the deque
is untouched; and the pending deque only ever holds users and
channels, so every entity PopOne removes is a user or a channel. -/
theorem chats_bypass_queue (ops : List QOp) (n : Nat) (e : TLEntity) :
    (e ∈ (runOps ops).pending → isUserOrChannel e = true) ∧
    get_peer_id (.chat n) ∈ (extend_pending (runOps ops) [.chat n]).dumped_ids ∧
    get_peer_id (.chat n) ∉ (extend_pending (runOps ops) [.chat n]).pending_ids ∧
    (extend_pending (runOps ops) [.chat n]).pending = (runOps ops).pending := by
  have h := runOps_qinv ops
  have hnp : get_peer_id (.chat n) ∉ (runOps ops).pending_ids :=
    chat_peer_not_pending (runOps ops) n h
  have hform : extend_pending (runOps ops) [.chat n] =
      dump_entity (runOps ops) (.chat n) := rfl
  refine ⟨fun he => h.2.2.2.2 e he, ?_, ?_, ?_⟩
  · rw [hform]
    unfold dump_entity
    split
    · rename_i hmem; exact hmem
    · exact List.mem_append_right _ (List.mem_singleton.mpr rfl)
  · rw [hform]
    unfold dump_entity
    intro hmem
    exact hnp (List.mem_of_mem_erase hmem)
  · rw [hform]; rfl

theorem chats_bypass_queue_witness :
    isUserOrChannel (.user 1 false false) = true ∧
    get_peer_id (.chat 9) ∈
      (extend_pending (runOps [.offer [.user 1 false false]]) [.chat 9]).dumped_ids :=
  ⟨(chats_bypass_queue [.offer [.user 1 false false]] 9
      (.user 1 false false)).1 (by decide),
   (chats_bypass_queue [.offer [.user 1 false false]] 9
      (.user 1 false false)).2.1⟩

/-!
Resynchronization behaviour (claim C2) and cursor monotonicity
(claim C3).
-/

/-- C2 (counterexample): in the resynchronization scenario — prior run
persisted up to stopAt = 5, the final page of new history bottoms out
at id 6 = stopAt + 1, the next page repeats the already-seen id 3 —
the run does terminate, but the message with id 3 ≤ stopAt, already
persisted by the prior run, is submitted to the dumper again (the
dump log records it), refuting the claim that no message with
id ≤ stopAt is re-persisted. -/
theorem resync_repersists_counterexample :
    (runPaging remoteC2 1 5 initC2).2 = true ∧
    (runPaging remoteC2 1 5 initC2).1.dumper.dumpLog = [6, 3] ∧
    3 ∈ initC2.dumper.messages ∧
    3 ≤ initC2.stopAt ∧
    remoteC2 0 0 = [⟨6, 10, .content⟩] ∧
    minId [⟨6, 10, .content⟩] = initC2.stopAt + 1 ∧
    (∀ m ∈ remoteC2 6 10, m.id ≤ initC2.stopAt) := by
  decide

/-- C2 (amended): from the state reached after the final page of new
history — the offset id equals stopAt + 1 — against any remote whose
page below that offset only repeats already-seen ids (ids at most
stopAt), the loop's very next iteration terminates it; the only
messages submitted to the dumper after that point are the rows of that
single extra page (the idempotent upsert makes their re-submission
harmless), rather than no re-persistence at all. -/
theorem resync_stops_within_one_extra_page (remote : Remote) (limit : Nat)
    (st : PagingState) (hlim : 0 < limit)
    (hoff : st.offsetId = st.stopAt + 1)
    (hrep : ∀ d m, m ∈ remote (st.stopAt + 1) d → m.id ≤ st.stopAt) :
    (step remote limit st).2 = true ∧
    (step remote limit st).1.dumper.dumpLog =
      st.dumper.dumpLog ++ pageIds (page remote st) := by
  have hpage : ∀ m ∈ page remote st, m.id ≤ st.stopAt := by
    intro m hm
    refine hrep st.offsetDate m ?_
    rw [← hoff]
    exact hm
  by_cases ha : (page remote st).length < limit
  · rw [step_short remote limit st ha]
    refine ⟨rfl, ?_⟩
    simp [save_resume, dump_page_dumpLog]
  · have hne : page remote st ≠ [] := by
      intro h0
      apply ha
      rw [h0]
      simpa using hlim
    have hb : offsetAfter st (page remote st) ≤ st.stopAt := by
      rw [offsetAfter, if_neg hne]
      obtain ⟨m, hm, hmin⟩ := minId_spec _ hne
      rw [hmin]
      exact hpage m hm
    rw [step_caught_up remote limit st ha hb]
    refine ⟨rfl, ?_⟩
    simp [save_resume, dump_page_dumpLog]

theorem resync_stops_witness :
    (step remoteC2 1 ⟨6, 0, 5, 0, ⟨[3, 5], [], ⟨0, 0, 5⟩, []⟩⟩).2 = true ∧
    (step remoteC2 1 ⟨6, 0, 5, 0, ⟨[3, 5], [], ⟨0, 0, 5⟩, []⟩⟩).1.dumper.dumpLog =
      ([] : List Nat) ++
        pageIds (page remoteC2 ⟨6, 0, 5, 0, ⟨[3, 5], [], ⟨0, 0, 5⟩, []⟩⟩) :=
  resync_stops_within_one_extra_page remoteC2 1
    ⟨6, 0, 5, 0, ⟨[3, 5], [], ⟨0, 0, 5⟩, []⟩⟩ (by decide) rfl
    (fun d m hm => by
      simp only [remoteC2] at hm
      simp at hm
      rw [hm]
      decide)

theorem cursorMono_append_last (l : List Resume) (r : Resume)
    (hl : cursorMono l)
    (hlast : ∀ x, l.getLast? = some x →
      r.offsetId ≤ x.offsetId ∧ x.stopAt ≤ r.stopAt) :
    cursorMono (l ++ [r]) := by
  unfold cursorMono at hl ⊢
  rw [List.chain'_append]
  refine ⟨hl, List.chain'_singleton r, ?_⟩
  intro x hx y hy
  simp only [List.head?_cons, Option.mem_def, Option.some.injEq] at hy
  rw [← hy]
  exact hlast x hx

theorem step_paging_inv (remote : Remote) (limit : Nat) (st : PagingState)
    (hrem : goodRemote remote) (hlim : 0 < limit) (h : PagingInv st) :
    cursorMono (step remote limit st).1.dumper.resumeLog ∧
    ((step remote limit st).2 = false → PagingInv (step remote limit st).1) := by
  obtain ⟨hstop, hmono, hlast⟩ := h
  have hterm :
      cursorMono ((save_resume (dump_page st.dumper (page remote st)) 0 0
        (max_msg_id (dump_page st.dumper (page remote st)))).resumeLog) := by
    show cursorMono ((dump_page st.dumper (page remote st)).resumeLog ++ [_])
    rw [dump_page_resumeLog]
    apply cursorMono_append_last _ _ hmono
    intro x hx
    refine ⟨Nat.zero_le _, ?_⟩
    rw [(hlast x hx).2.1]
    exact le_trans hstop (max_msg_id_dump_page_le _ _)
  by_cases ha : (page remote st).length < limit
  · rw [step_short remote limit st ha]
    exact ⟨hterm, fun hc => absurd hc (by simp)⟩
  · by_cases hb : offsetAfter st (page remote st) ≤ st.stopAt
    · rw [step_caught_up remote limit st ha hb]
      exact ⟨hterm, fun hc => absurd hc (by simp)⟩
    · have hcont := step_continue remote limit st ha hb
      have hne : page remote st ≠ [] := by
        intro h0
        apply ha
        rw [h0]
        simpa using hlim
      have hoffA : offsetAfter st (page remote st) = minId (page remote st) :=
        if_neg hne
      obtain ⟨m, hm, hmin⟩ := minId_spec _ hne
      have hid := hrem st.offsetId st.offsetDate m hm
      have hoff_pos : offsetAfter st (page remote st) ≠ 0 := by
        rw [hoffA, hmin]
        omega
      have hlog : (step remote limit st).1.dumper.resumeLog =
          st.dumper.resumeLog ++
            [⟨offsetAfter st (page remote st), dateAfter st (page remote st),
              st.stopAt⟩] := by
        rw [hcont.1]
        show (save_resume (dump_page st.dumper (page remote st)) _ _ _).resumeLog = _
        unfold save_resume
        rw [dump_page_resumeLog]
      have hmono' : cursorMono (step remote limit st).1.dumper.resumeLog := by
        rw [hlog]
        apply cursorMono_append_last _ _ hmono
        intro x hx
        have hx' := hlast x hx
        constructor
        · rw [hx'.1]
          rw [hoffA, hmin]
          exact le_of_lt (hid.2 hx'.2.2)
        · rw [hx'.2.1]
      refine ⟨hmono', fun _ => ?_⟩
      refine ⟨?_, hmono', ?_⟩
      · rw [hcont.1]
        show st.stopAt ≤ max_msg_id (save_resume (dump_page st.dumper _) _ _ _)
        unfold save_resume max_msg_id
        exact le_trans hstop (max_msg_id_dump_page_le _ _)
      · intro r hr
        rw [hlog, List.getLast?_concat] at hr
        injection hr with hr
        rw [← hr]
        rw [hcont.1]
        exact ⟨rfl, rfl, hoff_pos⟩

theorem runPaging_inv (remote : Remote) (limit : Nat)
    (hrem : goodRemote remote) (hlim : 0 < limit) :
    ∀ (fuel : Nat) (st : PagingState), PagingInv st →
      cursorMono ((runPaging remote limit fuel st).1.dumper.resumeLog) := by
  intro fuel
  induction fuel with
  | zero => exact fun st h => h.2.1
  | succ f ih =>
      intro st h
      rcases hs : step remote limit st with ⟨st', d⟩
      have hmain := step_paging_inv remote limit st hrem hlim h
      rw [hs] at hmain
      cases d
      · rw [show runPaging remote limit (f + 1) st = runPaging remote limit f st'
          from by simp [runPaging, hs]]
        exact ih st' (hmain.2 rfl)
      · rw [show runPaging remote limit (f + 1) st = (st', true)
          from by simp [runPaging, hs]]
        exact hmain.1

/-- C3: within one run of the paging loop — over any remote honouring
the GetHistory contract (positive ids, ids strictly below a nonzero
requested offset), with a positive page limit, starting from a store
whose maximum persisted id is at least the carried stop-at and an
empty cursor log for the run — every pair of successively persisted
resume cursors has a non-increasing offset id and a non-decreasing
stop-at: the stop-at is never lowered during the sync. -/
theorem cursor_monotonic_within_run (remote : Remote) (limit fuel : Nat)
    (st : PagingState)
    (hrem : goodRemote remote) (hlim : 0 < limit)
    (hstop : st.stopAt ≤ max_msg_id st.dumper)
    (hlog : st.dumper.resumeLog = []) :
    cursorMono ((runPaging remote limit fuel st).1.dumper.resumeLog) := by
  apply runPaging_inv remote limit hrem hlim fuel st
  refine ⟨hstop, ?_, ?_⟩
  · rw [hlog]
    exact List.chain'_nil
  · intro r hr
    rw [hlog] at hr
    cases hr

theorem cursor_monotonic_within_run_witness :
    cursorMono ((runPaging
      (fun o _ => if o = 0 then [⟨2, 1, .content⟩] else []) 1 4
      ⟨0, 0, 0, 0, ⟨[], [], ⟨0, 0, 0⟩, []⟩⟩).1.dumper.resumeLog) := by
  apply cursor_monotonic_within_run
    (fun o _ => if o = 0 then [⟨2, 1, .content⟩] else []) 1 4
    ⟨0, 0, 0, 0, ⟨[], [], ⟨0, 0, 0⟩, []⟩⟩
  · intro o d m hm
    dsimp only at hm
    by_cases ho : o = 0
    · subst ho
      simp at hm
      rw [hm]
      exact ⟨by decide, fun hc => absurd rfl hc⟩
    · rw [if_neg ho] at hm
      cases hm
  · decide
  · decide
  · rfl

/-!
Lemmas for the entity-serialization round trip (claim C9): decimal
printing and parsing are mutually inverse, and splitting recovers the
comma/semicolon-joined fields when no field contains the separator.
-/

theorem chDigit_digitCh (d : Nat) (h : d < 10) : chDigit (digitCh d) = d := by
  interval_cases d <;> decide

theorem isDigit_digitCh (d : Nat) (h : d < 10) : (digitCh d).isDigit = true := by
  interval_cases d <;> decide

theorem isDigit_ne_semi {c : Char} (h : c.isDigit = true) : c ≠ ';' := by
  rintro rfl
  exact absurd h (by decide)

theorem isDigit_ne_comma {c : Char} (h : c.isDigit = true) : c ≠ ',' := by
  rintro rfl
  exact absurd h (by decide)

theorem isDigit_ne_minus {c : Char} (h : c.isDigit = true) : c ≠ '-' := by
  rintro rfl
  exact absurd h (by decide)

theorem natChars_ne_nil (n : Nat) : natChars n ≠ [] := by
  unfold natChars
  split
  · simp
  · rename_i h
    have hd := (Nat.digits_ne_nil_iff_ne_zero (b := 10)).mpr h
    simp only [ne_eq, List.map_eq_nil_iff, List.reverse_eq_nil_iff]
    exact hd

theorem natChars_all_digit (n : Nat) : ∀ c ∈ natChars n, c.isDigit = true := by
  intro c hc
  unfold natChars at hc
  split at hc
  · rw [List.mem_singleton.mp hc]
    decide
  · rcases List.mem_map.mp hc with ⟨d, hd, hdc⟩
    have hd10 : d < 10 :=
      Nat.digits_lt_base (by norm_num) (List.mem_reverse.mp hd)
    rw [← hdc]
    exact isDigit_digitCh d hd10

theorem parseNat_natChars (n : Nat) : parseNat (natChars n) = some n := by
  by_cases h0 : n = 0
  · subst h0
    decide
  · unfold parseNat
    rw [if_pos ⟨natChars_ne_nil n,
      List.all_eq_true.mpr (fun c hc => natChars_all_digit n c hc)⟩]
    congr 1
    unfold natChars
    rw [if_neg h0, List.map_map]
    have hmap : List.map (chDigit ∘ digitCh) (Nat.digits 10 n).reverse =
        List.map id (Nat.digits 10 n).reverse :=
      List.map_congr_left (fun d hd =>
        chDigit_digitCh d (Nat.digits_lt_base (by norm_num) (List.mem_reverse.mp hd)))
    rw [hmap, List.map_id, List.reverse_reverse, Nat.ofDigits_digits]

theorem natChars_head_digit (n : Nat) :
    ∃ c cs, natChars n = c :: cs ∧ c.isDigit = true := by
  cases h : natChars n with
  | nil => exact absurd h (natChars_ne_nil n)
  | cons c cs =>
      exact ⟨c, cs, rfl, natChars_all_digit n c (by rw [h]; exact List.mem_cons_self _ _)⟩

theorem parseInt_intChars (i : Int) : parseInt (intChars i) = some i := by
  unfold intChars
  by_cases hneg : i < 0
  · rw [if_pos hneg]
    unfold parseInt
    simp only [List.head?_cons, List.tail_cons]
    rw [if_pos trivial, parseNat_natChars]
    simp only [Option.map_some']
    congr 1
    omega
  · rw [if_neg hneg]
    obtain ⟨c, cs, hc, hdig⟩ := natChars_head_digit i.toNat
    unfold parseInt
    rw [hc]
    simp only [List.head?_cons]
    rw [if_neg (by
      simp only [Option.some.injEq]
      intro hcm
      exact isDigit_ne_minus hdig hcm)]
    rw [← hc, parseNat_natChars]
    simp only [Option.map_some']
    congr 1
    omega

theorem intChars_chars (i : Int) :
    ∀ c ∈ intChars i, c = '-' ∨ c.isDigit = true := by
  intro c hc
  unfold intChars at hc
  split at hc
  · rcases List.mem_cons.mp hc with h | h
    · exact Or.inl h
    · exact Or.inr (natChars_all_digit _ c h)
  · exact Or.inr (natChars_all_digit _ c hc)

theorem comma_not_mem_intChars (i : Int) : ',' ∉ intChars i := by
  intro h
  rcases intChars_chars i ',' h with h1 | h1
  · exact absurd h1 (by decide)
  · exact absurd (isDigit_ne_comma h1) (by simp)

theorem semi_not_mem_intChars (i : Int) : ';' ∉ intChars i := by
  intro h
  rcases intChars_chars i ';' h with h1 | h1
  · exact absurd h1 (by decide)
  · exact absurd (isDigit_ne_semi h1) (by simp)

theorem replaceChar_of_not_mem (c : Char) (rep s : PyStr) (h : c ∉ s) :
    replaceChar c rep s = s := by
  induction s with
  | nil => rfl
  | cons x xs ih =>
      rw [replaceChar]
      have hx : ¬ x = c := fun hx => h (by rw [← hx]; exact List.mem_cons_self _ _)
      rw [if_neg hx, ih (fun hm => h (List.mem_cons_of_mem _ hm))]
      rfl

theorem escapeUrl_of_clean (u : PyStr) (hc : ',' ∉ u) (hs : ';' ∉ u) :
    escapeUrl u = u := by
  unfold escapeUrl
  rw [replaceChar_of_not_mem _ _ _ hc, replaceChar_of_not_mem _ _ _ hs]

theorem no_comma_p (xs : PyStr) (h : ',' ∉ xs) : ∀ x ∈ xs, ¬ ((x == ',') = true) :=
  fun _ hx hb => h ((eq_of_beq hb) ▸ hx)

theorem splitOn_comma3 (a b c : PyStr) (ha : ',' ∉ a) (hb : ',' ∉ b)
    (hc : ',' ∉ c) :
    (a ++ ',' :: (b ++ ',' :: c)).splitOn ',' = [a, b, c] := by
  show (a ++ ',' :: (b ++ ',' :: c)).splitOnP (· == ',') = [a, b, c]
  rw [List.splitOnP_first _ a (no_comma_p a ha) ',' (by simp) _]
  rw [List.splitOnP_first _ b (no_comma_p b hb) ',' (by simp) _]
  rw [List.splitOnP_eq_single _ c (no_comma_p c hc)]

theorem splitOn_comma4 (a b c d : PyStr) (ha : ',' ∉ a) (hb : ',' ∉ b)
    (hc : ',' ∉ c) (hd : ',' ∉ d) :
    (a ++ ',' :: (b ++ ',' :: (c ++ ',' :: d))).splitOn ',' = [a, b, c, d] := by
  show (a ++ ',' :: (b ++ ',' :: (c ++ ',' :: d))).splitOnP (· == ',') = [a, b, c, d]
  rw [List.splitOnP_first _ a (no_comma_p a ha) ',' (by simp) _]
  rw [List.splitOnP_first _ b (no_comma_p b hb) ',' (by simp) _]
  rw [List.splitOnP_first _ c (no_comma_p c hc) ',' (by simp) _]
  rw [List.splitOnP_eq_single _ d (no_comma_p d hd)]

theorem semi_not_mem_part3 (kind : PyStr) (hk : ';' ∉ kind) (o l : Int) :
    ';' ∉ (kind ++ ',' :: intChars o ++ ',' :: intChars l) := by
  intro hm
  simp only [List.cons_append, List.append_assoc, List.mem_append,
    List.mem_cons] at hm
  rcases hm with hm | hm | hm | hm | hm <;>
    first
      | exact hk hm
      | exact absurd hm (by decide)
      | exact semi_not_mem_intChars o hm
      | exact semi_not_mem_intChars l hm

theorem semi_not_mem_part4 (kind : PyStr) (hk : ';' ∉ kind) (o l : Int)
    (extra : PyStr) (he : ';' ∉ extra) :
    ';' ∉ (kind ++ ',' :: intChars o ++ ',' :: intChars l ++ ',' :: extra) := by
  intro hm
  simp only [List.cons_append, List.append_assoc, List.mem_append,
    List.mem_cons] at hm
  rcases hm with hm | hm | hm | hm | hm | hm | hm <;>
    first
      | exact hk hm
      | exact absurd hm (by decide)
      | exact semi_not_mem_intChars o hm
      | exact semi_not_mem_intChars l hm
      | exact he hm

theorem decodeOne_pre (o l : Int) :
    decodeOne ("pre".toList ++ ',' :: intChars o ++ ',' :: intChars l) =
      some (some (.pre o l)) := by
  have hsplit : ("pre".toList ++ ',' :: intChars o ++ ',' :: intChars l).splitOn ','
      = ["pre".toList, intChars o, intChars l] := by
    simp only [List.cons_append, List.append_assoc]
    exact splitOn_comma3 _ _ _ (by decide) (comma_not_mem_intChars o)
      (comma_not_mem_intChars l)
  unfold decodeOne
  rw [hsplit]
  simp [parseInt_intChars]

theorem decodeOne_code (o l : Int) :
    decodeOne ("code".toList ++ ',' :: intChars o ++ ',' :: intChars l) =
      some (some (.code o l)) := by
  have hsplit : ("code".toList ++ ',' :: intChars o ++ ',' :: intChars l).splitOn ','
      = ["code".toList, intChars o, intChars l] := by
    simp only [List.cons_append, List.append_assoc]
    exact splitOn_comma3 _ _ _ (by decide) (comma_not_mem_intChars o)
      (comma_not_mem_intChars l)
  unfold decodeOne
  rw [hsplit]
  simp [parseInt_intChars]

theorem decodeOne_bold (o l : Int) :
    decodeOne ("bold".toList ++ ',' :: intChars o ++ ',' :: intChars l) =
      some (some (.bold o l)) := by
  have hsplit : ("bold".toList ++ ',' :: intChars o ++ ',' :: intChars l).splitOn ','
      = ["bold".toList, intChars o, intChars l] := by
    simp only [List.cons_append, List.append_assoc]
    exact splitOn_comma3 _ _ _ (by decide) (comma_not_mem_intChars o)
      (comma_not_mem_intChars l)
  unfold decodeOne
  rw [hsplit]
  simp [parseInt_intChars]

theorem decodeOne_italic (o l : Int) :
    decodeOne ("italic".toList ++ ',' :: intChars o ++ ',' :: intChars l) =
      some (some (.italic o l)) := by
  have hsplit : ("italic".toList ++ ',' :: intChars o ++ ',' :: intChars l).splitOn ','
      = ["italic".toList, intChars o, intChars l] := by
    simp only [List.cons_append, List.append_assoc]
    exact splitOn_comma3 _ _ _ (by decide) (comma_not_mem_intChars o)
      (comma_not_mem_intChars l)
  unfold decodeOne
  rw [hsplit]
  simp [parseInt_intChars]

theorem decodeOne_texturl (o l : Int) (u : PyStr) (hcu : ',' ∉ u) :
    decodeOne ("texturl".toList ++ ',' :: intChars o ++ ',' :: intChars l
      ++ ',' :: u) = some (some (.texturl o l u)) := by
  have hsplit : ("texturl".toList ++ ',' :: intChars o ++ ',' :: intChars l
      ++ ',' :: u).splitOn ',' = ["texturl".toList, intChars o, intChars l, u] := by
    simp only [List.cons_append, List.append_assoc]
    exact splitOn_comma4 _ _ _ _ (by decide) (comma_not_mem_intChars o)
      (comma_not_mem_intChars l) hcu
  unfold decodeOne
  rw [hsplit]
  simp [parseInt_intChars]

theorem decodeOne_mentionname (o l uid : Int) :
    decodeOne ("mentionname".toList ++ ',' :: intChars o ++ ',' :: intChars l
      ++ ',' :: intChars uid) = some (some (.mentionname o l uid)) := by
  have hsplit : ("mentionname".toList ++ ',' :: intChars o ++ ',' :: intChars l
      ++ ',' :: intChars uid).splitOn ','
      = ["mentionname".toList, intChars o, intChars l, intChars uid] := by
    simp only [List.cons_append, List.append_assoc]
    exact splitOn_comma4 _ _ _ _ (by decide) (comma_not_mem_intChars o)
      (comma_not_mem_intChars l) (comma_not_mem_intChars uid)
  unfold decodeOne
  rw [hsplit]
  simp [parseInt_intChars]

theorem encodeOne_spec (e : MsgEntity) (h : entityOk e = true) :
    ∃ p, encodeOne e = some p ∧ p ≠ [] ∧ ';' ∉ p ∧
      decodeOne p = some (some e) := by
  cases e with
  | pre o l =>
      exact ⟨_, rfl, by simp, semi_not_mem_part3 _ (by decide) o l,
        decodeOne_pre o l⟩
  | code o l =>
      exact ⟨_, rfl, by simp, semi_not_mem_part3 _ (by decide) o l,
        decodeOne_code o l⟩
  | bold o l =>
      exact ⟨_, rfl, by simp, semi_not_mem_part3 _ (by decide) o l,
        decodeOne_bold o l⟩
  | italic o l =>
      exact ⟨_, rfl, by simp, semi_not_mem_part3 _ (by decide) o l,
        decodeOne_italic o l⟩
  | texturl o l u =>
      have hflags : u.contains ',' = false ∧ u.contains ';' = false := by
        simpa [entityOk, Bool.and_eq_true, Bool.not_eq_true'] using h
      have hcu : ',' ∉ u := by simpa using hflags.1
      have hsu : ';' ∉ u := by simpa using hflags.2
      refine ⟨_, rfl, ?_, ?_, ?_⟩
      · simp
      · rw [escapeUrl_of_clean u hcu hsu]
        exact semi_not_mem_part4 _ (by decide) o l u hsu
      · rw [escapeUrl_of_clean u hcu hsu]
        exact decodeOne_texturl o l u hcu
  | mentionname o l uid =>
      exact ⟨_, rfl, by simp, semi_not_mem_part4 _ (by decide) o l _
        (semi_not_mem_intChars uid), decodeOne_mentionname o l uid⟩
  | unsupported => exact absurd h (by decide)

theorem encode_filterMap (l : List MsgEntity) (h : ∀ e ∈ l, entityOk e = true) :
    ∃ parts, l.filterMap encodeOne = parts ∧ parts.length = l.length ∧
      (∀ p ∈ parts, ';' ∉ p ∧ p ≠ []) ∧ decodeList parts = some l := by
  induction l with
  | nil => exact ⟨[], rfl, rfl, fun p hp => absurd hp (List.not_mem_nil p), rfl⟩
  | cons e es ih =>
      obtain ⟨p, hp, hpne, hps, hpd⟩ :=
        encodeOne_spec e (h e (List.mem_cons_self _ _))
      obtain ⟨parts, hparts, hlen, hprop, hdec⟩ :=
        ih (fun x hx => h x (List.mem_cons_of_mem _ hx))
      refine ⟨p :: parts, ?_, by simp [hlen], ?_, ?_⟩
      · simp [List.filterMap_cons, hp, hparts]
      · intro q hq
        rcases List.mem_cons.mp hq with rfl | hq
        · exact ⟨hps, hpne⟩
        · exact hprop q hq
      · simp only [decodeList]
        rw [hpd, hdec]

/-- C9: for every nonempty list of message entities whose classes are
all supported and whose TextUrl entities carry URLs free of commas and
semicolons, decoding the encoding returns exactly the input list (same
kinds, offsets, lengths, URLs and user ids); an empty or None input
encodes to None, and decoding None or the empty string returns None. -/
theorem encode_decode_roundtrip (l : List MsgEntity) (hne : l ≠ [])
    (h : ∀ e ∈ l, entityOk e = true) :
    decode_msg_entities (encode_msg_entities (some l)) = some (some l) ∧
    encode_msg_entities (some []) = none ∧
    encode_msg_entities none = none ∧
    decode_msg_entities none = some none ∧
    decode_msg_entities (some []) = some none := by
  refine ⟨?_, rfl, rfl, rfl, rfl⟩
  obtain ⟨parts, hparts, hlen, hprop, hdec⟩ := encode_filterMap l h
  have hpne : parts ≠ [] := by
    intro h0
    rw [h0] at hlen
    exact hne (List.length_eq_zero.mp hlen.symm)
  have hsemi : ∀ q ∈ parts, ';' ∉ q := fun q hq => (hprop q hq).1
  have hsplit : ([';'].intercalate parts).splitOn ';' = parts :=
    List.splitOn_intercalate parts ';' hsemi hpne
  have henc : encode_msg_entities (some l) = some ([';'].intercalate parts) := by
    show (if l = [] then none
      else some ([';'].intercalate (l.filterMap encodeOne))) =
        some ([';'].intercalate parts)
    rw [if_neg hne, hparts]
  have hine : [';'].intercalate parts ≠ [] := by
    intro h0
    have hps := hsplit
    rw [h0, List.splitOn_nil] at hps
    rcases parts with _ | ⟨q, qs⟩
    · exact hpne rfl
    · injection hps with h1 h2
      exact (hprop q (List.mem_cons_self _ _)).2 h1.symm
  obtain ⟨c, cs, hcc⟩ := List.exists_cons_of_ne_nil hine
  rw [henc, hcc]
  show (decodeList ((c :: cs).splitOn ';')).map some = some (some l)
  rw [← hcc, hsplit, hdec]
  rfl

theorem encode_decode_roundtrip_witness :
    decode_msg_entities (encode_msg_entities
      (some [.pre 2 3, .texturl 0 5 ['a', 'b'], .mentionname 1 2 77])) =
      some (some [.pre 2 3, .texturl 0 5 ['a', 'b'], .mentionname 1 2 77]) :=
  (encode_decode_roundtrip [.pre 2 3, .texturl 0 5 ['a', 'b'], .mentionname 1 2 77]
    (by decide) (by decide)).1

end TelegramExport
